import Mathlib

/-!
Verification of the backend core of the Ollie desktop LLM chat application.

This file is a shallow embedding, in Lean 4, of the parts of the Rust source
that the specification's testable properties talk about:

* the tool-result truncation performed by `ChatOrchestrator::run_conversation`
  (src-tauri/src/providers/orchestrator.rs),
* the per-chunk byte decoding and line splitting of `OllamaStream::poll_next`
  (src-tauri/src/providers/ollama.rs),
* the OpenAI tool-call delta accumulator of `OpenAIStream::process_data_line`
  and `flush_tool_calls` (src-tauri/src/providers/openai.rs),
* the conversation loop of `ChatOrchestrator::run_conversation`,
* the MCP client's request/response correlation (src-tauri/src/mcp/mod.rs)
  over the stdio and SSE transports (src-tauri/src/mcp/transport.rs),
* the Ollama tool-unsupported fallback of `OllamaProvider::stream_chat`,
* the stream registry manipulation of `chat_stream` and `abort_chat`
  (src-tauri/src/commands/chat.rs).

Rust strings are modelled as Lean `String` / `List Char`; Rust's byte indices
are modelled by summing `Char.utf8Size`.  Fallible operations return `Except`;
a Rust panic is modelled as `Except.error ()`.
-/

/-! ## Byte-length arithmetic for Rust `&str` slicing

Rust's `text.len()` is the UTF-8 byte length, and `&text[..n]` slices at byte
index `n`, panicking when `n` is not a character boundary. -/

/-- UTF-8 byte length of a list of characters, mirroring Rust `str::len`. -/
def byteLen (s : List Char) : Nat := (s.map Char.utf8Size).sum

/-- Models the Rust byte slice `&text[..n]`: returns the characters occupying
exactly the first `n` bytes, or `none` when byte `n` is not a character
boundary (the case in which the Rust slice panics). -/
def bytePrefix : List Char → Nat → Option (List Char)
  | _, 0 => some []
  | [], _ + 1 => none
  | c :: cs, n + 1 =>
    if c.utf8Size ≤ n + 1 then (bytePrefix cs (n + 1 - c.utf8Size)).map (c :: ·) else none

/-- Accumulator loop for `lastNewlinePos`. -/
def lastNlAux : List Char → Nat → Option Nat → Option Nat
  | [], _, best => best
  | c :: cs, pos, best => lastNlAux cs (pos + c.utf8Size) (if c = '\n' then some pos else best)

/-- Byte position of the last newline in `s`, mirroring Rust
`str::rfind('\n')`. -/
def lastNewlinePos (s : List Char) : Option Nat := lastNlAux s 0 none

/-! ## Tool-result truncation (orchestrator.rs lines 152-167) -/

/-- Truncation limit `MAX_RESULT_CHARS` from `run_conversation`. -/
def MAX_RESULT_CHARS : Nat := 8000

/-- Trailing notice appended by the truncation branch of `run_conversation`,
with the two `format!` holes filled by `cut_point` and `text.len()`. -/
def truncNotice (cut total : Nat) : String :=
  "\n\n[... Output truncated. Showing " ++ toString cut ++ "/" ++ toString total ++
    " characters. Consider using more specific queries or filters to reduce output size.]"

/-- Embedding of the truncation logic of `run_conversation`: when the text is
longer than `MAX_RESULT_CHARS` bytes, slice the first 8000 bytes, find the last
newline in that slice (falling back to 8000), and rebuild the message from
`&text[..cut_point]` plus the notice.  `Except.error ()` models the panic of a
Rust byte slice landing inside a multi-byte character. -/
def truncateResult (text : String) : Except Unit String :=
  let tl := text.data
  if byteLen tl > MAX_RESULT_CHARS then
    match bytePrefix tl MAX_RESULT_CHARS with
    | none => .error ()
    | some truncated =>
      let cut := (lastNewlinePos truncated).getD MAX_RESULT_CHARS
      match bytePrefix tl cut with
      | none => .error ()
      | some kept => .ok (String.mk kept ++ truncNotice cut (byteLen tl))
  else .ok text

/-! ### Lemmas about the byte-position helpers -/

theorem char_utf8Size_pos (c : Char) : 0 < c.utf8Size := by
  simp only [Char.utf8Size]
  repeat' split
  all_goals decide

theorem byteLen_cons (c : Char) (cs : List Char) :
    byteLen (c :: cs) = c.utf8Size + byteLen cs := by
  simp [byteLen]

theorem byteLen_append (a b : List Char) :
    byteLen (a ++ b) = byteLen a + byteLen b := by
  induction a with
  | nil => simp [byteLen]
  | cons c cs ih => simp [byteLen_cons, ih, Nat.add_assoc]

theorem bytePrefix_sound {s k : List Char} {n : Nat}
    (h : bytePrefix s n = some k) : ∃ r, s = k ++ r ∧ byteLen k = n := by
  induction s generalizing n k with
  | nil =>
    cases n with
    | zero => simp [bytePrefix] at h; subst h; exact ⟨[], rfl, rfl⟩
    | succ m => simp [bytePrefix] at h
  | cons c cs ih =>
    cases n with
    | zero => simp [bytePrefix] at h; subst h; exact ⟨c :: cs, rfl, rfl⟩
    | succ m =>
      simp only [bytePrefix] at h
      split at h
      · next hle =>
        rcases Option.map_eq_some'.mp h with ⟨k₀, hk₀, rfl⟩
        rcases ih hk₀ with ⟨r, hr, hlen⟩
        refine ⟨r, by simp [hr], ?_⟩
        rw [byteLen_cons, hlen]
        omega
      · exact absurd h (by simp)

theorem bytePrefix_append (k r : List Char) :
    bytePrefix (k ++ r) (byteLen k) = some k := by
  induction k with
  | nil => simp [byteLen, bytePrefix]
  | cons c cs ih =>
    have hc := char_utf8Size_pos c
    rw [byteLen_cons]
    obtain ⟨m, hm⟩ : ∃ m, c.utf8Size + byteLen cs = m + 1 := ⟨c.utf8Size + byteLen cs - 1, by omega⟩
    rw [hm]
    show bytePrefix (c :: (cs ++ r)) (m + 1) = some (c :: cs)
    simp only [bytePrefix]
    have hle : c.utf8Size ≤ m + 1 := by omega
    rw [if_pos hle]
    have hsub : m + 1 - c.utf8Size = byteLen cs := by omega
    rw [hsub, ih]
    rfl

theorem lastNlAux_eq (s : List Char) :
    ∀ pos best, lastNlAux s pos best =
      match lastNewlinePos s with
      | some p => some (pos + p)
      | none => best := by
  induction s with
  | nil => intro pos best; simp [lastNlAux, lastNewlinePos]
  | cons c cs ih =>
    intro pos best
    simp only [lastNlAux, lastNewlinePos]
    rw [ih, ih]
    cases hcs : lastNewlinePos cs with
    | some p => simp [Nat.add_assoc]
    | none =>
      by_cases hc : c = '\n' <;> simp [hc]

theorem lastNewlinePos_cons (c : Char) (cs : List Char) :
    lastNewlinePos (c :: cs) =
      match lastNewlinePos cs with
      | some q => some (c.utf8Size + q)
      | none => if c = '\n' then some 0 else none := by
  show lastNlAux cs (0 + c.utf8Size) (if c = '\n' then some 0 else none) = _
  rw [lastNlAux_eq]
  cases lastNewlinePos cs <;> simp

/-- Predicate: `s` has a newline starting at byte position `p`. -/
def NlAt (s : List Char) (p : Nat) : Prop :=
  ∃ k r, s = k ++ '\n' :: r ∧ byteLen k = p

theorem lastNewlinePos_sound {s : List Char} {p : Nat}
    (h : lastNewlinePos s = some p) : NlAt s p := by
  induction s generalizing p with
  | nil => simp [lastNewlinePos, lastNlAux] at h
  | cons c cs ih =>
    rw [lastNewlinePos_cons] at h
    cases hcs : lastNewlinePos cs with
    | some q =>
      rw [hcs] at h
      simp at h
      rcases ih hcs with ⟨k, r, hk, hlen⟩
      exact ⟨c :: k, r, by simp [hk], by rw [byteLen_cons, hlen, h]⟩
    | none =>
      rw [hcs] at h
      by_cases hc : c = '\n'
      · rw [if_pos hc] at h
        simp at h
        subst hc
        exact ⟨[], cs, rfl, by simp [byteLen, ← h]⟩
      · rw [if_neg hc] at h
        exact absurd h (by simp)

theorem lastNewlinePos_none {s : List Char}
    (h : lastNewlinePos s = none) : ∀ p, ¬ NlAt s p := by
  induction s with
  | nil =>
    intro p ⟨k, r, hk, _⟩
    exact absurd hk (by simp)
  | cons c cs ih =>
    rw [lastNewlinePos_cons] at h
    cases hcs : lastNewlinePos cs with
    | some q => rw [hcs] at h; simp at h
    | none =>
      rw [hcs] at h
      have hc : c ≠ '\n' := by
        intro hcn
        rw [if_pos hcn] at h
        exact absurd h (by simp)
      intro p ⟨k, r, hk, hlen⟩
      cases k with
      | nil => simp at hk; exact hc hk.1
      | cons d k' =>
        simp at hk
        exact ih hcs (byteLen k') ⟨k', r, hk.2, rfl⟩

theorem lastNewlinePos_max {s : List Char} {p : Nat}
    (h : lastNewlinePos s = some p) : ∀ q, NlAt s q → q ≤ p := by
  induction s generalizing p with
  | nil =>
    intro q ⟨k, r, hk, _⟩
    exact absurd hk (by simp)
  | cons c cs ih =>
    rw [lastNewlinePos_cons] at h
    intro q hq
    rcases hq with ⟨k, r, hk, hlen⟩
    cases hcs : lastNewlinePos cs with
    | some m =>
      rw [hcs] at h
      simp at h
      cases k with
      | nil =>
        have hq0 : q = 0 := by simpa [byteLen] using hlen.symm
        omega
      | cons d k' =>
        simp at hk
        obtain ⟨rfl, hk'⟩ := hk
        have hle := ih hcs (byteLen k') ⟨k', r, hk', rfl⟩
        rw [← hlen, byteLen_cons]
        omega
    | none =>
      rw [hcs] at h
      cases k with
      | nil =>
        have : q = 0 := by simpa [byteLen] using hlen.symm
        omega
      | cons d k' =>
        simp at hk
        exact absurd ⟨k', r, hk.2, rfl⟩ (lastNewlinePos_none hcs (byteLen k'))

theorem newline_in_bytePrefix {a b k r : List Char}
    (h : a ++ b = k ++ '\n' :: r) (hlen : byteLen k < byteLen a) :
    ∃ e, a = k ++ '\n' :: e := by
  induction k generalizing a with
  | nil =>
    cases a with
    | nil => simp [byteLen] at hlen
    | cons x a' =>
      simp at h
      exact ⟨a', by simp [h.1]⟩
  | cons y k' ih =>
    cases a with
    | nil => simp [byteLen] at hlen
    | cons x a' =>
      simp at h
      obtain ⟨rfl, h2⟩ := h
      rw [byteLen_cons, byteLen_cons] at hlen
      rcases ih h2 (by omega) with ⟨e, he⟩
      exact ⟨e, by simp [he]⟩

theorem byteLen_replicate (n : Nat) (c : Char) :
    byteLen (List.replicate n c) = n * c.utf8Size := by
  induction n with
  | zero => simp [byteLen]
  | succ m ih => rw [List.replicate_succ, byteLen_cons, ih]; ring

theorem bytePrefix_split (k r : List Char) (m : Nat) :
    bytePrefix (k ++ r) (byteLen k + m) = (bytePrefix r m).map (k ++ ·) := by
  induction k with
  | nil =>
    cases h : bytePrefix r m <;> simp [byteLen, h]
  | cons c cs ih =>
    have hc := char_utf8Size_pos c
    rw [byteLen_cons]
    obtain ⟨m', hm'⟩ : ∃ m', c.utf8Size + (byteLen cs + m) = m' + 1 :=
      ⟨c.utf8Size + (byteLen cs + m) - 1, by omega⟩
    rw [Nat.add_assoc, hm']
    show bytePrefix (c :: (cs ++ r)) (m' + 1) = _
    simp only [bytePrefix]
    rw [if_pos (by omega : c.utf8Size ≤ m' + 1)]
    have hsub : m' + 1 - c.utf8Size = byteLen cs + m := by omega
    rw [hsub, ih]
    cases h : bytePrefix r m <;> simp [h]

theorem lastNewlinePos_eq_none {s : List Char} (h : '\n' ∉ s) :
    lastNewlinePos s = none := by
  cases hs : lastNewlinePos s with
  | none => rfl
  | some p =>
    rcases lastNewlinePos_sound hs with ⟨k, r, hk, _⟩
    exact absurd (by simp [hk] : '\n' ∈ s) h

/-- C6 (amended): the truncation of `run_conversation` is governed by the
UTF-8 *byte* length, not the character count.  When the text is at most 8000
bytes it passes through unchanged; when it is longer and byte 8000 is a
character boundary, the kept part is a prefix of the text that either ends
right before a newline or spans exactly 8000 bytes, no newline strictly inside
the first 8000 bytes starts after the cut, and the truncation notice is
appended. -/
theorem c6_tool_result_truncation (text : String) :
    (byteLen text.data ≤ MAX_RESULT_CHARS → truncateResult text = .ok text) ∧
    (byteLen text.data > MAX_RESULT_CHARS →
      ∀ truncated, bytePrefix text.data MAX_RESULT_CHARS = some truncated →
      ∃ pre rest,
        truncateResult text =
          .ok (String.mk pre ++ truncNotice (byteLen pre) (byteLen text.data)) ∧
        text.data = pre ++ rest ∧
        byteLen pre ≤ MAX_RESULT_CHARS ∧
        ((∃ r2, text.data = pre ++ '\n' :: r2) ∨ byteLen pre = MAX_RESULT_CHARS) ∧
        (∀ k2 r2, text.data = k2 ++ '\n' :: r2 →
          byteLen k2 < MAX_RESULT_CHARS → byteLen k2 ≤ byteLen pre)) := by
  constructor
  · intro hle
    simp only [truncateResult]
    rw [if_neg (by omega)]
  · intro hgt truncated htr
    obtain ⟨rest0, hdec, hlen8000⟩ := bytePrefix_sound htr
    cases hnl : lastNewlinePos truncated with
    | some p =>
      rcases lastNewlinePos_sound hnl with ⟨k, r, hkdec, hklen⟩
      have htext : text.data = k ++ '\n' :: (r ++ rest0) := by
        rw [hdec, hkdec]; simp
      have hkept : bytePrefix text.data p = some k := by
        rw [htext, ← hklen]
        exact bytePrefix_append k ('\n' :: (r ++ rest0))
      have hres : truncateResult text =
          .ok (String.mk k ++ truncNotice p (byteLen text.data)) := by
        simp only [truncateResult]
        rw [if_pos hgt, htr]
        simp only [hnl, Option.getD_some]
        rw [hkept]
      refine ⟨k, '\n' :: (r ++ rest0), ?_, htext, ?_, Or.inl ⟨r ++ rest0, htext⟩, ?_⟩
      · rw [hres, hklen]
      · have : byteLen truncated = byteLen k + ('\n'.utf8Size + byteLen r) := by
          rw [hkdec, byteLen_append, byteLen_cons]
        have hnlsz : '\n'.utf8Size = 1 := by decide
        omega
      · intro k2 r2 hdec2 hlt2
        have hab : truncated ++ rest0 = k2 ++ '\n' :: r2 := by rw [← hdec, hdec2]
        rcases newline_in_bytePrefix hab (by omega) with ⟨e, he⟩
        have := lastNewlinePos_max hnl (byteLen k2) ⟨k2, e, he, rfl⟩
        omega
    | none =>
      have hres : truncateResult text =
          .ok (String.mk truncated ++ truncNotice MAX_RESULT_CHARS (byteLen text.data)) := by
        simp only [truncateResult]
        rw [if_pos hgt, htr]
        simp only [hnl, Option.getD_none]
        rw [htr]
      refine ⟨truncated, rest0, ?_, hdec, by omega, Or.inr hlen8000, ?_⟩
      · rw [hres, hlen8000]
      · intro k2 r2 hdec2 hlt2
        omega

theorem truncateResult_of_le {text : String}
    (h : byteLen text.data ≤ MAX_RESULT_CHARS) : truncateResult text = .ok text := by
  simp only [truncateResult]
  rw [if_neg (by omega)]

theorem truncateResult_of_boundary_panic {text : String}
    (hgt : byteLen text.data > MAX_RESULT_CHARS)
    (htr : bytePrefix text.data MAX_RESULT_CHARS = none) :
    truncateResult text = .error () := by
  simp only [truncateResult]
  rw [if_pos hgt, htr]

theorem truncateResult_of_no_newline {text : String} {truncated : List Char}
    (hgt : byteLen text.data > MAX_RESULT_CHARS)
    (htr : bytePrefix text.data MAX_RESULT_CHARS = some truncated)
    (hnl : lastNewlinePos truncated = none) :
    truncateResult text =
      .ok (String.mk truncated ++ truncNotice MAX_RESULT_CHARS (byteLen text.data)) := by
  simp only [truncateResult]
  rw [if_pos hgt, htr]
  simp only [hnl, Option.getD_none]
  rw [htr]

/-- Concrete tool-result text: 8100 ASCII characters, no newline. -/
def plainLong : String := String.mk (List.replicate 8100 'a')

/-- Witness for `c6_tool_result_truncation` at the 8100-byte ASCII text. -/
theorem c6_tool_result_truncation_witness :
    ∃ pre rest,
      truncateResult plainLong =
        .ok (String.mk pre ++ truncNotice (byteLen pre) (byteLen plainLong.data)) ∧
      plainLong.data = pre ++ rest ∧
      byteLen pre ≤ MAX_RESULT_CHARS ∧
      ((∃ r2, plainLong.data = pre ++ '\n' :: r2) ∨ byteLen pre = MAX_RESULT_CHARS) ∧
      (∀ k2 r2, plainLong.data = k2 ++ '\n' :: r2 →
        byteLen k2 < MAX_RESULT_CHARS → byteLen k2 ≤ byteLen pre) := by
  have hgt : byteLen plainLong.data > MAX_RESULT_CHARS := by
    show byteLen (List.replicate 8100 'a') > MAX_RESULT_CHARS
    rw [byteLen_replicate]
    decide
  have htr : bytePrefix plainLong.data MAX_RESULT_CHARS = some (List.replicate 8000 'a') := by
    show bytePrefix (List.replicate 8100 'a') MAX_RESULT_CHARS = _
    rw [show List.replicate 8100 'a' = List.replicate 8000 'a' ++ List.replicate 100 'a'
      from by rw [← List.replicate_add]]
    have h := bytePrefix_append (List.replicate 8000 'a') (List.replicate 100 'a')
    rwa [byteLen_replicate, show 8000 * 'a'.utf8Size = MAX_RESULT_CHARS from by decide] at h
  exact (c6_tool_result_truncation plainLong).2 hgt (List.replicate 8000 'a') htr

/-- Concrete tool-result text of 2001 characters occupying 8004 bytes. -/
def wideText : String := String.mk (List.replicate 2001 '𝄞')

/-- C6 counterexample: `wideText` has only 2001 characters — at most 8000, so
the claim says the orchestrator passes it through unchanged — yet
`run_conversation` truncates it, because its UTF-8 encoding exceeds 8000
bytes (the code compares `text.len()`, a byte count). -/
theorem c6_counterexample :
    wideText.data.length ≤ MAX_RESULT_CHARS ∧ truncateResult wideText ≠ .ok wideText := by
  have hdata : wideText.data = List.replicate 2001 '𝄞' := rfl
  have hbl : byteLen wideText.data = 8004 := by
    rw [hdata, byteLen_replicate]; decide
  have htr : bytePrefix wideText.data MAX_RESULT_CHARS = some (List.replicate 2000 '𝄞') := by
    rw [hdata, show List.replicate 2001 '𝄞' = List.replicate 2000 '𝄞' ++ List.replicate 1 '𝄞'
      from by rw [← List.replicate_add]]
    have h := bytePrefix_append (List.replicate 2000 '𝄞') (List.replicate 1 '𝄞')
    rwa [byteLen_replicate, show 2000 * '𝄞'.utf8Size = MAX_RESULT_CHARS from by decide] at h
  have hnl : lastNewlinePos (List.replicate 2000 '𝄞') = none := by
    refine lastNewlinePos_eq_none ?_
    intro hmem
    exact absurd (List.eq_of_mem_replicate hmem) (by decide)
  have hval : truncateResult wideText =
      .ok (String.mk (List.replicate 2000 '𝄞') ++ truncNotice MAX_RESULT_CHARS 8004) := by
    rw [truncateResult_of_no_newline (by rw [hbl]; decide) htr hnl, hbl]
  refine ⟨by rw [hdata, List.length_replicate]; norm_num [MAX_RESULT_CHARS], ?_⟩
  intro heq
  rw [hval] at heq
  have hdq : List.replicate 2000 '𝄞' ++ (truncNotice MAX_RESULT_CHARS 8004).data
      = List.replicate 2001 '𝄞' := by
    have h := congrArg String.data (Except.ok.inj heq)
    rwa [String.data_append, hdata] at h
  have hlenq := congrArg List.length hdq
  rw [List.length_append, List.length_replicate, List.length_replicate] at hlenq
  have hne : (truncNotice MAX_RESULT_CHARS 8004).data.length ≠ 1 := by
    set_option maxRecDepth 10000 in decide
  omega

/-- Concrete tool-result text of 8002 bytes whose byte 8000 falls inside the
final four-byte character. -/
def overlongTail : String := String.mk (List.replicate 1999 '𝄞' ++ ['a', 'a', '𝄞'])

/-- C10: evaluating the truncation at `overlongTail` reaches the Rust byte
slice `&text[..8000]` with byte 8000 inside a multi-byte character, which
panics; the embedding returns the panic marker instead of a tool message. -/
theorem c10_truncation_panic : truncateResult overlongTail = .error () := by
  have hdata : overlongTail.data = (List.replicate 1999 '𝄞' ++ ['a', 'a']) ++ ['𝄞'] := by
    show List.replicate 1999 '𝄞' ++ ['a', 'a', '𝄞'] = _
    rw [List.append_assoc]
    rfl
  have hkb : byteLen (List.replicate 1999 '𝄞' ++ ['a', 'a']) = 7998 := by
    rw [byteLen_append, byteLen_replicate]; decide
  have hbl : byteLen overlongTail.data = 8002 := by
    rw [hdata, byteLen_append, hkb]; decide
  have htr : bytePrefix overlongTail.data MAX_RESULT_CHARS = none := by
    rw [hdata]
    have h2 : MAX_RESULT_CHARS = byteLen (List.replicate 1999 '𝄞' ++ ['a', 'a']) + 2 := by
      rw [hkb]; decide
    rw [h2, bytePrefix_split]
    rw [show bytePrefix ['𝄞'] 2 = none from by decide]
    rfl
  exact truncateResult_of_boundary_panic (by rw [hbl]; decide) htr

/-! ## Byte-stream decoding of `OllamaStream::poll_next` (ollama.rs 236-273)

The stream keeps a rolling `String` buffer.  On every chunk of bytes it runs
`String::from_utf8_lossy(&bytes)` — a *per-chunk* lossy decode — appends the
result to the buffer, then splits off every complete line at `'\n'`; at end of
stream a non-empty buffer is processed as one final line.
(`OpenAIStream::poll_next` in openai.rs 347-378 uses the same per-chunk
decode.)  Bytes are modelled as `Nat` values below 256. -/

/-- Unicode replacement character U+FFFD produced by lossy decoding. -/
def replChar : Char := Char.ofNat 0xFFFD

/-- Continuation byte test (0x80..=0xBF). -/
def isCont (b : Nat) : Bool := 0x80 ≤ b && b ≤ 0xBF

/-- Model of Rust `String::from_utf8_lossy`: decodes UTF-8, substituting
U+FFFD for each maximal subpart of an ill-formed subsequence, per the WHATWG
algorithm that Rust implements. -/
def utf8Lossy : List Nat → List Char
  | [] => []
  | b :: rest =>
    if b < 0x80 then Char.ofNat b :: utf8Lossy rest
    else if 0xC2 ≤ b ∧ b ≤ 0xDF then
      match rest with
      | [] => [replChar]
      | b1 :: rest2 =>
        if isCont b1 then
          Char.ofNat ((b - 0xC0) * 64 + (b1 - 0x80)) :: utf8Lossy rest2
        else replChar :: utf8Lossy (b1 :: rest2)
    else if 0xE0 ≤ b ∧ b ≤ 0xEF then
      match rest with
      | [] => [replChar]
      | b1 :: rest2 =>
        if (if b = 0xE0 then 0xA0 else 0x80) ≤ b1 ∧ b1 ≤ (if b = 0xED then 0x9F else 0xBF) then
          match rest2 with
          | [] => [replChar]
          | b2 :: rest3 =>
            if isCont b2 then
              Char.ofNat ((b - 0xE0) * 4096 + (b1 - 0x80) * 64 + (b2 - 0x80)) :: utf8Lossy rest3
            else replChar :: utf8Lossy (b2 :: rest3)
        else replChar :: utf8Lossy (b1 :: rest2)
    else if 0xF0 ≤ b ∧ b ≤ 0xF4 then
      match rest with
      | [] => [replChar]
      | b1 :: rest2 =>
        if (if b = 0xF0 then 0x90 else 0x80) ≤ b1 ∧ b1 ≤ (if b = 0xF4 then 0x8F else 0xBF) then
          match rest2 with
          | [] => [replChar]
          | b2 :: rest3 =>
            if isCont b2 then
              match rest3 with
              | [] => [replChar]
              | b3 :: rest4 =>
                if isCont b3 then
                  Char.ofNat ((b - 0xF0) * 262144 + (b1 - 0x80) * 4096 +
                    (b2 - 0x80) * 64 + (b3 - 0x80)) :: utf8Lossy rest4
                else replChar :: utf8Lossy (b3 :: rest4)
            else replChar :: utf8Lossy (b2 :: rest3)
        else replChar :: utf8Lossy (b1 :: rest2)
    else replChar :: utf8Lossy rest

/-- Splits a buffer into its complete lines (segments ending in `'\n'`) and
the trailing incomplete remainder, mirroring the
`while let Some(pos) = self.buffer.find('\n')` loop of `poll_next`. -/
def nlSplit : List Char → List (List Char) × List Char
  | [] => ([], [])
  | c :: cs =>
    let (ls, rest) := nlSplit cs
    if c = '\n' then ([] :: ls, rest)
    else
      match ls with
      | [] => ([], c :: rest)
      | l :: ls' => ((c :: l) :: ls', rest)

/-- Drives the buffer of `OllamaStream::poll_next` over a list of byte
chunks, collecting the sequence of line strings handed to `process_line`
(including the final flush of a non-empty buffer at end of stream). -/
def feedChunks (buffer : List Char) : List (List Nat) → List (List Char)
  | [] => if buffer.isEmpty then [] else [buffer]
  | ch :: cs =>
    let buf2 := buffer ++ utf8Lossy ch
    let (ls, rest) := nlSplit buf2
    ls ++ feedChunks rest cs

/-- Lines produced by the NDJSON decoder for a chunked response body. -/
def ollamaLines (chunks : List (List Nat)) : List (List Char) := feedChunks [] chunks

/-- UTF-8 encoding of one character (used to build concrete byte inputs). -/
def utf8Bytes (c : Char) : List Nat :=
  let n := c.toNat
  if n < 0x80 then [n]
  else if n < 0x800 then [0xC0 + n / 64, 0x80 + n % 64]
  else if n < 0x10000 then [0xE0 + n / 4096, 0x80 + (n / 64) % 64, 0x80 + n % 64]
  else [0xF0 + n / 262144, 0x80 + (n / 4096) % 64, 0x80 + (n / 64) % 64, 0x80 + n % 64]

/-- UTF-8 encoding of a string. -/
def strBytes (s : String) : List Nat :=
  s.data.foldr (fun c acc => utf8Bytes c ++ acc) []

/-- Well-formed NDJSON record whose content field is the two-byte character
`é`, exactly as the local daemon would send it. -/
def ndjsonLine : String := "\x7b\"message\":\x7b\"content\":\"é\"\x7d,\"done\":true\x7d"

/-- The same record followed by its terminating newline, as raw bytes. -/
def ndjsonBody : List Nat := strBytes (ndjsonLine ++ "\n")

/-- The record as it comes out of the decoder when the two bytes of `é` are
split across chunks: each half is lossily decoded on its own, so the content
field becomes two U+FFFD replacement characters. -/
def corruptedLine : String :=
  "\x7b\"message\":\x7b\"content\":\"��\"\x7d,\"done\":true\x7d"

/-- C1: the NDJSON decoder is not split-invariant.  Unsplit, the body yields
the well-formed record line; split between the two bytes of the multi-byte
character `é` (byte 24 of the body), the per-chunk lossy decode of
`poll_next` yields a different line carrying U+FFFD replacement characters,
so the `Content` events of the two runs concatenate to different strings
("é" versus two replacement characters). -/
theorem c1_ndjson_not_split_invariant :
    ollamaLines [ndjsonBody] = [ndjsonLine.data] ∧
    ollamaLines [ndjsonBody.take 24, ndjsonBody.drop 24] = [corruptedLine.data] ∧
    corruptedLine.data ≠ ndjsonLine.data ∧
    replChar ∈ corruptedLine.data ∧ replChar ∉ ndjsonLine.data := by
  refine ⟨by decide, by decide, by decide, by decide, by decide⟩

/-! ## OpenAI tool-call delta assembly (openai.rs 206-295)

A `data:` line is either the `[DONE]` sentinel or a JSON chunk with a list of
choices; each choice carries an optional content delta, optional tool-call
fragments and an optional finish reason.  Fragments carry an `index`
(fragments without one are skipped), and per index the accumulator entry
starts from `{"type":"function","function":{"name":"","arguments":""},"id":""}`;
`id` and `type` replace on arrival, `function.name` and `function.arguments`
append.  A finish reason (or `[DONE]`) flushes the accumulator in ascending
index order.  Unparseable lines (constructor `other`) are skipped; the
Groq-repair branch for top-level error objects is independent of the
accumulator and is not modelled here. -/

/-- One element of a `delta.tool_calls` array. -/
structure ToolFrag where
  index : Option Nat
  id : Option String
  type : Option String
  name : Option String
  args : Option String
deriving DecidableEq

/-- Accumulator entry per index. -/
structure AccEntry where
  id : String
  ty : String
  name : String
  args : String
deriving DecidableEq

/-- Initial accumulator entry inserted by `or_insert_with`. -/
def initEntry : AccEntry := ⟨"", "function", "", ""⟩

/-- Field updates applied to an entry for one fragment: `id` and `type`
replace when present, `name` and `arguments` append. -/
def updateEntry (e : AccEntry) (f : ToolFrag) : AccEntry :=
  { id := f.id.getD e.id
  , ty := f.type.getD e.ty
  , name := e.name ++ (f.name.getD "")
  , args := e.args ++ (f.args.getD "") }

/-- Association-list lookup modelling `HashMap::get`. -/
def lookupA : List (Nat × AccEntry) → Nat → Option AccEntry
  | [], _ => none
  | (j, e) :: r, i => if j = i then some e else lookupA r i

/-- Association-list update-or-insert modelling `HashMap::entry(...).or_insert`
followed by in-place mutation. -/
def setA : List (Nat × AccEntry) → Nat → AccEntry → List (Nat × AccEntry)
  | [], i, e => [(i, e)]
  | (j, e0) :: r, i, e => if j = i then (j, e) :: r else (j, e0) :: setA r i e

/-- Processing of one tool-call fragment (openai.rs 246-272): fragments
without an index are skipped; otherwise the indexed entry is created if
missing and updated. -/
def applyFrag (acc : List (Nat × AccEntry)) (f : ToolFrag) : List (Nat × AccEntry) :=
  match f.index with
  | none => acc
  | some i => setA acc i (updateEntry ((lookupA acc i).getD initEntry) f)

/-- Events queued by the OpenAI stream parser (payloads of `Usage` are not
relevant to the assembly claims). -/
inductive OAIEvent where
  | content (s : String)
  | toolCall (id ty name args : String)
  | usage
deriving DecidableEq

/-- Tool-call event built from a finished accumulator entry. -/
def toolCallEv (e : AccEntry) : OAIEvent := .toolCall e.id e.ty e.name e.args

/-- Parser state: the accumulator map and the queued events. -/
structure OAIState where
  acc : List (Nat × AccEntry)
  queue : List OAIEvent
deriving DecidableEq

/-- Initial parser state. -/
def initOAI : OAIState := ⟨[], []⟩

/-- Embedding of `flush_tool_calls`: collect the keys, sort ascending
(`indices.sort()`), emit one event per accumulated index in that order, then
clear the accumulator. -/
def flushToolCalls (st : OAIState) : OAIState :=
  let ks := List.insertionSort (· ≤ ·) (st.acc.map Prod.fst)
  ⟨[], st.queue ++ ks.filterMap (fun i => (lookupA st.acc i).map toolCallEv)⟩

/-- One element of `chunk.choices`. -/
structure OAIChoice where
  contentDelta : Option String
  toolFrags : Option (List ToolFrag)
  finish : Option String
deriving DecidableEq

/-- One SSE `data:` payload as seen by `process_data_line`. -/
inductive DataLine where
  | done
  | chunk (choices : List OAIChoice) (hasUsage : Bool)
  | other
deriving DecidableEq

/-- Processing of one choice (openai.rs 236-280): content deltas are queued
when non-empty, fragments are folded into the accumulator, and a present
finish reason flushes. -/
def processChoice (st : OAIState) (ch : OAIChoice) : OAIState :=
  let st1 :=
    match ch.contentDelta with
    | some s => if s.isEmpty then st else { st with queue := st.queue ++ [.content s] }
    | none => st
  let st2 :=
    match ch.toolFrags with
    | some fs => { st1 with acc := fs.foldl applyFrag st1.acc }
    | none => st1
  if ch.finish.isSome then flushToolCalls st2 else st2

/-- Embedding of `process_data_line` for the delta-assembly fragment of the
parser. -/
def processDataLine (st : OAIState) (l : DataLine) : OAIState :=
  match l with
  | .done => flushToolCalls st
  | .chunk choices hasUsage =>
    let st1 := if hasUsage then { st with queue := st.queue ++ [.usage] } else st
    choices.foldl processChoice st1
  | .other => st

/-- Processing of a whole sequence of `data:` lines from the initial state. -/
def processLines (ls : List DataLine) : OAIState := ls.foldl processDataLine initOAI

/-! ### Specification-side assembly, written from the claim's words -/

/-- Fragments belonging to one index, in arrival order. -/
def fragsFor (frags : List ToolFrag) (i : Nat) : List ToolFrag :=
  frags.filter (fun f => f.index == some i)

/-- Last present value of an optional field, defaulting to `d`. -/
def lastField (g : ToolFrag → Option String) (d : String) (fs : List ToolFrag) : String :=
  fs.foldl (fun s f => (g f).getD s) d

/-- Character-wise concatenation of the present values of an optional field. -/
def catField (g : ToolFrag → Option String) (fs : List ToolFrag) : String :=
  fs.foldl (fun s f => s ++ (g f).getD "") ""

/-- Assembled entry for one index, stated independently of the accumulator:
names and arguments concatenate, id and type are last-arrival. -/
def assembleSpec (frags : List ToolFrag) (i : Nat) : AccEntry :=
  { id := lastField (·.id) "" (fragsFor frags i)
  , ty := lastField (·.type) "function" (fragsFor frags i)
  , name := catField (·.name) (fragsFor frags i)
  , args := catField (·.args) (fragsFor frags i) }

/-- Indices occurring in a fragment sequence (each once). -/
def idxList (frags : List ToolFrag) : List Nat :=
  (frags.filterMap (·.index)).dedup

/-- Expected flush output: one tool call per occurring index, ascending. -/
def specEvents (frags : List ToolFrag) : List OAIEvent :=
  (List.insertionSort (· ≤ ·) (idxList frags)).map (fun i => toolCallEv (assembleSpec frags i))

/-- A `data:` line carrying exactly one choice holding the given fragments. -/
def mkFragLine (fs : List ToolFrag) : DataLine := .chunk [⟨none, some fs, none⟩] false

/-! ### Lemmas about the accumulator -/

theorem lookupA_setA (acc : List (Nat × AccEntry)) (j i : Nat) (e : AccEntry) :
    lookupA (setA acc j e) i = if i = j then some e else lookupA acc i := by
  induction acc with
  | nil =>
    by_cases h : j = i
    · simp [setA, lookupA, h]
    · simp only [setA, lookupA]
      rw [if_neg h, if_neg (by omega : ¬ i = j)]
  | cons p r ih =>
    obtain ⟨k, e0⟩ := p
    simp only [setA]
    by_cases hk : k = j
    · rw [if_pos hk]
      subst hk
      simp only [lookupA]
      by_cases h2 : k = i
      · simp [h2]
      · rw [if_neg h2, if_neg (by omega : ¬ i = k), if_neg h2]
    · rw [if_neg hk]
      simp only [lookupA]
      by_cases h2 : k = i
      · have hij : ¬ i = j := by omega
        simp [h2, hij]
      · simp [h2, ih]

theorem keys_setA (acc : List (Nat × AccEntry)) (j : Nat) (e : AccEntry) :
    (setA acc j e).map Prod.fst =
      if j ∈ acc.map Prod.fst then acc.map Prod.fst else acc.map Prod.fst ++ [j] := by
  induction acc with
  | nil => simp [setA]
  | cons p r ih =>
    obtain ⟨k, e0⟩ := p
    simp only [setA]
    by_cases hk : k = j
    · rw [if_pos hk]
      subst hk
      simp
    · rw [if_neg hk]
      simp only [List.map_cons, List.mem_cons]
      rw [ih]
      by_cases hj : j ∈ r.map Prod.fst
      · rw [if_pos hj, if_pos (Or.inr hj)]
      · rw [if_neg hj, if_neg (by rintro (h | h); exact hk h.symm; exact hj h)]
        simp

theorem nodupKeys_setA {acc : List (Nat × AccEntry)} {j : Nat} {e : AccEntry}
    (h : (acc.map Prod.fst).Nodup) : ((setA acc j e).map Prod.fst).Nodup := by
  rw [keys_setA]
  by_cases hj : j ∈ acc.map Prod.fst
  · rwa [if_pos hj]
  · rw [if_neg hj]
    simp [List.nodup_append, h, hj]

theorem lookupA_isSome_iff (acc : List (Nat × AccEntry)) (i : Nat) :
    (lookupA acc i).isSome = true ↔ i ∈ acc.map Prod.fst := by
  induction acc with
  | nil => simp [lookupA]
  | cons p r ih =>
    obtain ⟨k, e0⟩ := p
    simp only [lookupA, List.map_cons, List.mem_cons]
    by_cases h : k = i
    · rw [if_pos h]
      simp [h.symm]
    · rw [if_neg h]
      rw [ih]
      constructor
      · exact Or.inr
      · rintro (hh | hh)
        · exact absurd hh.symm h
        · exact hh

theorem fragsFor_append (frags : List ToolFrag) (f : ToolFrag) (i : Nat) :
    fragsFor (frags ++ [f]) i =
      fragsFor frags i ++ (if f.index == some i then [f] else []) := by
  simp only [fragsFor, List.filter_append]
  congr 1
  cases h : (f.index == some i) <;> simp [List.filter_cons, h]

theorem assembleSpec_append_some {f : ToolFrag} {i : Nat} (frags : List ToolFrag)
    (h : f.index = some i) :
    assembleSpec (frags ++ [f]) i = updateEntry (assembleSpec frags i) f := by
  have hb : (f.index == some i) = true := by simp [h]
  simp [assembleSpec, updateEntry, fragsFor_append, hb, lastField, catField,
    List.foldl_append]

theorem assembleSpec_append_ne {f : ToolFrag} {i : Nat} (frags : List ToolFrag)
    (h : f.index ≠ some i) :
    assembleSpec (frags ++ [f]) i = assembleSpec frags i := by
  have hb : (f.index == some i) = false := by simp [h]
  simp [assembleSpec, fragsFor_append, hb]

theorem foldl_applyFrag_inv (frags : List ToolFrag) :
    (∀ i, (lookupA (List.foldl applyFrag [] frags) i).getD initEntry = assembleSpec frags i) ∧
    (∀ i, ((lookupA (List.foldl applyFrag [] frags) i).isSome = true ↔
      ∃ f ∈ frags, f.index = some i)) ∧
    ((List.foldl applyFrag [] frags).map Prod.fst).Nodup := by
  induction frags using List.reverseRecOn with
  | nil =>
    refine ⟨?_, ?_, by simp⟩
    · intro i
      simp [lookupA, assembleSpec, fragsFor, lastField, catField, initEntry]
    · intro i
      simp [lookupA]
  | append_singleton fs f ih =>
    obtain ⟨ihA, ihB, ihC⟩ := ih
    simp only [List.foldl_append, List.foldl_cons, List.foldl_nil]
    cases hidx : f.index with
    | none =>
      have happ : applyFrag (List.foldl applyFrag [] fs) f = List.foldl applyFrag [] fs := by
        simp [applyFrag, hidx]
      rw [happ]
      refine ⟨?_, ?_, ihC⟩
      · intro i
        rw [ihA i, assembleSpec_append_ne fs (by rw [hidx]; simp)]
      · intro i
        rw [ihB i]
        constructor
        · rintro ⟨g, hg, hgi⟩
          exact ⟨g, by simp [hg], hgi⟩
        · rintro ⟨g, hg, hgi⟩
          rcases List.mem_append.mp hg with hg' | hg'
          · exact ⟨g, hg', hgi⟩
          · simp at hg'
            subst hg'
            rw [hidx] at hgi
            exact absurd hgi (by simp)
    | some j =>
      have happ : applyFrag (List.foldl applyFrag [] fs) f =
          setA (List.foldl applyFrag [] fs) j (updateEntry (assembleSpec fs j) f) := by
        simp [applyFrag, hidx, ihA j]
      rw [happ]
      refine ⟨?_, ?_, nodupKeys_setA ihC⟩
      · intro i
        rw [lookupA_setA]
        by_cases hij : i = j
        · rw [if_pos hij, hij]
          rw [assembleSpec_append_some fs hidx]
          rfl
        · rw [if_neg hij, ihA i,
            assembleSpec_append_ne fs (by rw [hidx]; intro hc; exact hij (Option.some.inj hc).symm)]
      · intro i
        rw [lookupA_setA]
        by_cases hij : i = j
        · rw [if_pos hij]
          subst hij
          simp only [Option.isSome_some, true_iff]
          exact ⟨f, by simp, hidx⟩
        · rw [if_neg hij, ihB i]
          constructor
          · rintro ⟨g, hg, hgi⟩
            exact ⟨g, by simp [hg], hgi⟩
          · rintro ⟨g, hg, hgi⟩
            rcases List.mem_append.mp hg with hg' | hg'
            · exact ⟨g, hg', hgi⟩
            · simp at hg'
              subst hg'
              rw [hidx] at hgi
              exact absurd (Option.some.inj hgi).symm hij

theorem filterMap_eq_map_of {α β : Type} (l : List α) (fn : α → Option β) (g : α → β)
    (h : ∀ x ∈ l, fn x = some (g x)) : l.filterMap fn = l.map g := by
  induction l with
  | nil => rfl
  | cons a r ih =>
    rw [List.filterMap_cons, h a (by simp), List.map_cons,
      ih (fun x hx => h x (by simp [hx]))]

theorem flushToolCalls_foldl (frags : List ToolFrag) (q : List OAIEvent) :
    flushToolCalls ⟨List.foldl applyFrag [] frags, q⟩ = ⟨[], q ++ specEvents frags⟩ := by
  obtain ⟨ihA, ihB, ihC⟩ := foldl_applyFrag_inv frags
  have hmem : ∀ i, i ∈ (List.foldl applyFrag [] frags).map Prod.fst ↔ i ∈ idxList frags := by
    intro i
    rw [← lookupA_isSome_iff, ihB i]
    simp [idxList, List.mem_dedup, List.mem_filterMap]
  have hperm : ((List.foldl applyFrag [] frags).map Prod.fst).Perm (idxList frags) :=
    List.perm_of_nodup_nodup_toFinset_eq ihC (List.nodup_dedup _)
      (by ext a; simp only [List.mem_toFinset]; exact hmem a)
  have hks : List.insertionSort (· ≤ ·) ((List.foldl applyFrag [] frags).map Prod.fst) =
      List.insertionSort (· ≤ ·) (idxList frags) := by
    refine List.eq_of_perm_of_sorted (r := (· ≤ · : Nat → Nat → Prop)) ?_ ?_ ?_
    · exact ((List.perm_insertionSort _ _).trans hperm).trans
        (List.perm_insertionSort _ _).symm
    · exact List.sorted_insertionSort _ _
    · exact List.sorted_insertionSort _ _
  have hlook : ∀ i ∈ List.insertionSort (· ≤ ·) (idxList frags),
      (lookupA (List.foldl applyFrag [] frags) i).map toolCallEv =
        some (toolCallEv (assembleSpec frags i)) := by
    intro i hi
    have hi2 : i ∈ idxList frags := (List.perm_insertionSort _ _).mem_iff.mp hi
    have hsome : (lookupA (List.foldl applyFrag [] frags) i).isSome = true := by
      rw [lookupA_isSome_iff]
      exact (hmem i).mpr hi2
    obtain ⟨e, he⟩ := Option.isSome_iff_exists.mp hsome
    have hgd := ihA i
    rw [he] at hgd ⊢
    simp at hgd
    rw [hgd]
    rfl
  simp only [flushToolCalls, hks]
  rw [filterMap_eq_map_of _ _ _ hlook]
  rfl

theorem processDataLine_mkFragLine (st : OAIState) (fs : List ToolFrag) :
    processDataLine st (mkFragLine fs) = ⟨fs.foldl applyFrag st.acc, st.queue⟩ := rfl

theorem foldl_mkFragLines (fragLists : List (List ToolFrag)) (st : OAIState) :
    List.foldl processDataLine st (fragLists.map mkFragLine) =
      ⟨(fragLists.flatten).foldl applyFrag st.acc, st.queue⟩ := by
  induction fragLists generalizing st with
  | nil => rfl
  | cons fs rest ih =>
    simp only [List.map_cons, List.foldl_cons, processDataLine_mkFragLine]
    rw [ih]
    simp [List.foldl_append]

/-- C3 (amended): for every sequence of tool-call fragments, however it is
split across `data:` chunks, terminating the stream flushes exactly one
`ToolCall` per occurring index in ascending index order, whose `name` and
`arguments` are the character-wise concatenation of that index's fragments
and whose `id` and `type` are the most recently arrived fragment values
(defaulting to `""` and `"function"`), after which the accumulator is empty. -/
theorem c3_openai_tool_call_assembly (fragLists : List (List ToolFrag)) :
    processLines (fragLists.map mkFragLine ++ [DataLine.done]) =
      ⟨[], specEvents fragLists.flatten⟩ := by
  unfold processLines
  rw [List.foldl_append, foldl_mkFragLines]
  simp only [List.foldl_cons, List.foldl_nil, processDataLine]
  have h := flushToolCalls_foldl fragLists.flatten []
  simpa using h

/-- C3 counterexample: when an index's `id` arrives in two fragments
(`"a"` then `"b"`), the flushed id is the replacement value `"b"`, not the
character-wise concatenation `"ab"` the claim asserts. -/
theorem c3_counterexample :
    processLines [DataLine.chunk
        [⟨none, some [⟨some 0, some "a", none, none, none⟩,
                      ⟨some 0, some "b", none, none, none⟩], some "stop"⟩] false]
      = ⟨[], [OAIEvent.toolCall "b" "function" "" ""]⟩ ∧ ("b" : String) ≠ "a" ++ "b" := by
  refine ⟨by decide, by decide⟩

/-! ## Conversation loop of `ChatOrchestrator::run_conversation`
(orchestrator.rs 22-207)

External collaborators are oracles in an environment record: the provider
(`stream_chat`, which may fail before yielding a stream), the shared cancel
flag (modelled as the sequence of values returned by successive atomic loads),
the tool-to-client mapping built by `gather_tools`, the MCP client registry
lookup, and `call_tool`.  Tool-call arguments are carried as their raw
argument string (the orchestrator parses them only to hand them over).
The emitted-event trace, the number of `stream_chat` invocations, the returned
result and whether the loop exited through the `MAX_LOOPS` break are the
observables.  A panic of the truncation slice aborts the task; it is modelled
as an `.error "panicked"` result. -/

instance {ε α : Type} [DecidableEq ε] [DecidableEq α] : DecidableEq (Except ε α) :=
  fun a b =>
    match a, b with
    | .ok x, .ok y => if h : x = y then .isTrue (by rw [h]) else .isFalse (by simp [h])
    | .error x, .error y => if h : x = y then .isTrue (by rw [h]) else .isFalse (by simp [h])
    | .ok _, .error _ => .isFalse (by simp)
    | .error _, .ok _ => .isFalse (by simp)

/-- The `function` member of a tool-call value. -/
structure FuncV where
  name : Option String
  args : Option String
deriving DecidableEq

/-- A tool-call value as the orchestrator reads it (`call.get("function")`,
`call.get("id")`). -/
structure ToolCallV where
  id : Option String
  fn : Option FuncV
deriving DecidableEq

/-- Events yielded by a provider adapter stream (`ProviderEvent`). -/
inductive PEvent where
  | content (s : String)
  | toolCall (tc : ToolCallV)
  | usage
  | errorEv (e : String)
deriving DecidableEq

/-- A `ChatMessage` of the unified data model. -/
structure MsgV where
  role : String
  content : String
  images : Option (List String)
  toolCalls : Option (List ToolCallV)
  toolCallId : Option String
deriving DecidableEq

/-- Events emitted to the UI event sink, with the payload parts the claims
talk about. -/
inductive EmE where
  | streamStart
  | chunk (content : String) (done : Bool)
  | toolStart (name : String)
  | cancelled
  | errorEv (e : String)
  | complete
deriving DecidableEq

/-- Terminal events per claim C4. -/
def isTerminal : EmE → Bool
  | .cancelled => true
  | .complete => true
  | .errorEv _ => true
  | _ => false

/-- One item of an MCP `call_tool` result. -/
inductive ContentItem where
  | text (t : String)
  | image
  | resource (t : Option String)
deriving DecidableEq

/-- Result of an MCP `call_tool`. -/
structure CallToolRes where
  content : List ContentItem
  isError : Bool
deriving DecidableEq

/-- Oracle environment of one `run_conversation` call. -/
structure OrchEnv where
  provider : List MsgV → Except String (List PEvent)
  cancel : Nat → Bool
  toolMapping : String → Option String
  clientFound : String → Bool
  callTool : String → String → Except String CallToolRes

/-- Text materialization of a tool result (orchestrator.rs 138-151): `text`
items and `resource` items carrying text are concatenated, each followed by a
newline; other items are skipped. -/
def materialize (items : List ContentItem) : String :=
  items.foldl
    (fun acc it =>
      match it with
      | .text t => acc ++ t ++ "\n"
      | .resource (some t) => acc ++ t ++ "\n"
      | _ => acc)
    ""

/-- Outcome of the event-consumption `while` loop (orchestrator.rs 60-86). -/
inductive EvOutcome where
  | errored (emitted : List EmE) (msg : String)
  | fin (emitted : List EmE) (content : String) (tcs : List ToolCallV) (k : Nat)

/-- Embedding of the event loop: each yielded event is preceded by a cancel
load (index `k` in the load sequence); content is appended and echoed as a
`chat:chunk`, tool calls accumulate, `Error` emits `chat:error` and fails,
`Usage` is discarded. -/
def procEvents (cancel : Nat → Bool) : Nat → List PEvent → EvOutcome
  | k, [] => .fin [] "" [] k
  | k, e :: rest =>
    if cancel k then .fin [] "" [] (k + 1)
    else
      match e with
      | .content s =>
        match procEvents cancel (k + 1) rest with
        | .errored em m => .errored (EmE.chunk s false :: em) m
        | .fin em c tcs k' => .fin (EmE.chunk s false :: em) (s ++ c) tcs k'
      | .toolCall tc =>
        match procEvents cancel (k + 1) rest with
        | .errored em m => .errored em m
        | .fin em c tcs k' => .fin em c (tc :: tcs) k'
      | .errorEv m => .errored [EmE.errorEv m] m
      | .usage => procEvents cancel (k + 1) rest

/-- Dispatch of one tool call to its MCP client (orchestrator.rs 132-199):
missing mappings and missing clients substitute error-text tool messages;
a failing `call_tool` substitutes an error-text message; a successful one is
materialized and truncated (which can panic, `.error ()`). -/
def runToolCall (env : OrchEnv) (name argsStr : String) : Except Unit String :=
  match env.toolMapping name with
  | some clientName =>
    if env.clientFound clientName then
      match env.callTool name argsStr with
      | .ok res => truncateResult (materialize res.content)
      | .error e => .ok ("Error executing tool: " ++ e)
    else .ok ("Error: Client " ++ clientName ++ " not found")
  | none => .ok ("Error: No client found for tool " ++ name)

/-- Embedding of the tool-execution `for` loop: calls without a `function`
member are skipped; each executed call emits `chat:tool-start` and appends a
`tool` message carrying the (possibly truncated) result text and the call id. -/
def execTools (env : OrchEnv) : List ToolCallV → List EmE × Except Unit (List MsgV)
  | [] => ([], .ok [])
  | tc :: rest =>
    match tc.fn with
    | none => execTools env rest
    | some f =>
      let name := f.name.getD ""
      let argsStr := f.args.getD "\x7b\x7d"
      let callId := tc.id.getD ""
      match runToolCall env name argsStr with
      | .error _ => ([EmE.toolStart name], .error ())
      | .ok contentStr =>
        let (evs, restRes) := execTools env rest
        (EmE.toolStart name :: evs,
          restRes.map (fun ms => (⟨"tool", contentStr, none, none, some callId⟩ : MsgV) :: ms))

/-- Result of one `run_conversation` call: the emitted trace, how often the
adapter was invoked, the returned value, and whether the exit was the
`MAX_LOOPS` break. -/
structure RunResult where
  events : List EmE
  invocations : Nat
  result : Except String Unit
  cappedExit : Bool
deriving DecidableEq

/-- Loop bound `MAX_LOOPS` of `run_conversation`. -/
def MAX_LOOPS : Nat := 10

/-- Embedding of the conversation loop, by remaining fuel
`MAX_LOOPS - loop_count`: check cancel, invoke the adapter, consume its
events, then either finish (cancel / no tool calls / error) or execute the
tool calls and re-enter. -/
def runLoop (env : OrchEnv) : Nat → List MsgV → Nat → List EmE → Nat → RunResult
  | 0, _, _, acc, inv => ⟨acc, inv, .ok (), true⟩
  | fuel + 1, msgs, k, acc, inv =>
    if env.cancel k then ⟨acc ++ [.cancelled], inv, .ok (), false⟩
    else
      match env.provider msgs with
      | .error e => ⟨acc, inv + 1, .error e, false⟩
      | .ok events =>
        match procEvents env.cancel (k + 1) events with
        | .errored em m => ⟨acc ++ em, inv + 1, .error m, false⟩
        | .fin em fullContent tcs k' =>
          if env.cancel k' then ⟨acc ++ em ++ [.cancelled], inv + 1, .ok (), false⟩
          else if tcs.isEmpty then
            ⟨acc ++ em ++ [.chunk "" true, .complete], inv + 1, .ok (), false⟩
          else
            match execTools env tcs with
            | (tevs, .error _) => ⟨acc ++ em ++ tevs, inv + 1, .error "panicked", false⟩
            | (tevs, .ok toolMsgs) =>
              runLoop env fuel
                ((msgs ++ [⟨"assistant", fullContent, none, some tcs, none⟩]) ++ toolMsgs)
                (k' + 1) (acc ++ em ++ tevs) (inv + 1)

/-- One `run_conversation` call: emits `chat:stream-start`, then runs the
bounded loop. -/
def runConv (env : OrchEnv) (initialMessages : List MsgV) : RunResult :=
  runLoop env MAX_LOOPS initialMessages 0 [EmE.streamStart] 0

/-! ### Loop termination and terminal-event discipline -/

theorem procEvents_fin_events {cancel : Nat → Bool} {k : Nat} {evs : List PEvent}
    {em : List EmE} {c : String} {tcs : List ToolCallV} {k' : Nat}
    (h : procEvents cancel k evs = .fin em c tcs k') : ∀ e ∈ em, isTerminal e = false := by
  induction evs generalizing k em c tcs k' with
  | nil =>
    simp only [procEvents] at h
    cases h
    simp
  | cons e rest ih =>
    simp only [procEvents] at h
    split at h
    · cases h
      simp
    · cases e with
      | content s =>
        cases hrec : procEvents cancel (k + 1) rest with
        | errored em2 m2 => rw [hrec] at h; cases h
        | fin em2 c2 tcs2 k2 =>
          rw [hrec] at h
          cases h
          intro x hx
          rcases List.mem_cons.mp hx with hx | hx
          · subst hx; rfl
          · exact ih hrec x hx
      | toolCall tc =>
        cases hrec : procEvents cancel (k + 1) rest with
        | errored em2 m2 => rw [hrec] at h; cases h
        | fin em2 c2 tcs2 k2 =>
          rw [hrec] at h
          cases h
          exact ih hrec
      | errorEv m => cases h
      | usage => exact ih h

theorem procEvents_errored_events {cancel : Nat → Bool} {k : Nat} {evs : List PEvent}
    {em : List EmE} {m : String}
    (h : procEvents cancel k evs = .errored em m) :
    em ≠ [] ∧ ∀ e ∈ em.dropLast, isTerminal e = false := by
  induction evs generalizing k em with
  | nil => simp only [procEvents] at h; cases h
  | cons e rest ih =>
    simp only [procEvents] at h
    split at h
    · cases h
    · cases e with
      | content s =>
        cases hrec : procEvents cancel (k + 1) rest with
        | errored em2 m2 =>
          rw [hrec] at h
          cases h
          obtain ⟨hne, hdrop⟩ := ih hrec
          refine ⟨by simp, ?_⟩
          rw [List.dropLast_cons_of_ne_nil hne]
          intro x hx
          rcases List.mem_cons.mp hx with hx | hx
          · subst hx; rfl
          · exact hdrop x hx
        | fin em2 c2 tcs2 k2 => rw [hrec] at h; cases h
      | toolCall tc =>
        cases hrec : procEvents cancel (k + 1) rest with
        | errored em2 m2 =>
          rw [hrec] at h
          cases h
          exact ih hrec
        | fin em2 c2 tcs2 k2 => rw [hrec] at h; cases h
      | errorEv m2 =>
        cases h
        exact ⟨by simp, by simp⟩
      | usage => exact ih h

theorem execTools_events (env : OrchEnv) (tcs : List ToolCallV) :
    ∀ e ∈ (execTools env tcs).1, isTerminal e = false := by
  induction tcs with
  | nil => simp [execTools]
  | cons tc rest ih =>
    cases hfn : tc.fn with
    | none => simpa [execTools, hfn] using ih
    | some f =>
      simp only [execTools, hfn]
      cases hrun : runToolCall env (f.name.getD "") (f.args.getD "\x7b\x7d") with
      | error u =>
        intro x hx
        rw [List.mem_singleton] at hx
        subst hx
        rfl
      | ok contentStr =>
        cases hrec : execTools env rest with
        | mk evs restRes =>
          simp only [hrec]
          intro x hx
          rcases List.mem_cons.mp hx with hx | hx
          · subst hx; rfl
          · exact ih x (by rw [hrec]; exact hx)

theorem runLoop_inv (env : OrchEnv) (fuel : Nat) :
    ∀ msgs k acc inv, (∀ e ∈ acc, isTerminal e = false) →
      ((runLoop env fuel msgs k acc inv).invocations ≤ inv + fuel) ∧
      ((runLoop env fuel msgs k acc inv).cappedExit = true →
        (runLoop env fuel msgs k acc inv).result = .ok () ∧
        ∀ e ∈ (runLoop env fuel msgs k acc inv).events, isTerminal e = false) ∧
      (∀ e ∈ (runLoop env fuel msgs k acc inv).events.dropLast, isTerminal e = false) := by
  induction fuel with
  | zero =>
    intro msgs k acc inv hacc
    refine ⟨by simp [runLoop], ?_, ?_⟩
    · intro _
      exact ⟨rfl, hacc⟩
    · intro e he
      exact hacc e (List.dropLast_subset _ he)
  | succ fuel ih =>
    intro msgs k acc inv hacc
    simp only [runLoop]
    by_cases hc : env.cancel k = true
    · rw [if_pos hc]
      refine ⟨by simp, by simp, ?_⟩
      intro e he
      rw [List.dropLast_concat] at he
      exact hacc e he
    · rw [if_neg hc]
      cases hp : env.provider msgs with
      | error err =>
        simp only []
        refine ⟨?_, ?_, ?_⟩
        · show inv + 1 ≤ inv + (fuel + 1)
          omega
        · intro h
          cases h
        · intro e he
          exact hacc e (List.dropLast_subset _ he)
      | ok events =>
        cases hpe : procEvents env.cancel (k + 1) events with
        | errored em m =>
          simp only [hpe]
          obtain ⟨hne, hdrop⟩ := procEvents_errored_events hpe
          refine ⟨?_, ?_, ?_⟩
          · show inv + 1 ≤ inv + (fuel + 1)
            omega
          · intro h
            cases h
          · intro e he
            have he' : e ∈ (acc ++ em).dropLast := he
            rw [List.dropLast_append_of_ne_nil _ hne] at he'
            rcases List.mem_append.mp he' with h2 | h2
            · exact hacc e h2
            · exact hdrop e h2
        | fin em fullContent tcs k' =>
          simp only [hpe]
          have hem := procEvents_fin_events hpe
          by_cases hc2 : env.cancel k' = true
          · rw [if_pos hc2]
            refine ⟨?_, ?_, ?_⟩
            · show inv + 1 ≤ inv + (fuel + 1)
              omega
            · intro h
              cases h
            · intro e he
              have he' : e ∈ (acc ++ em ++ [EmE.cancelled]).dropLast := he
              rw [List.dropLast_concat] at he'
              rcases List.mem_append.mp he' with h2 | h2
              · exact hacc e h2
              · exact hem e h2
          · rw [if_neg hc2]
            by_cases htc : tcs.isEmpty = true
            · rw [if_pos htc]
              refine ⟨?_, ?_, ?_⟩
              · show inv + 1 ≤ inv + (fuel + 1)
                omega
              · intro h
                cases h
              · intro e he
                have he' : e ∈ (acc ++ em ++ [EmE.chunk "" true, EmE.complete]).dropLast := he
                rw [List.dropLast_append_of_ne_nil _ (by simp)] at he'
                rcases List.mem_append.mp he' with h2 | h2
                · rcases List.mem_append.mp h2 with h3 | h3
                  · exact hacc e h3
                  · exact hem e h3
                · simp at h2
                  subst h2
                  rfl
            · rw [if_neg htc]
              cases hex : execTools env tcs with
              | mk tevs restRes =>
                have htevs : ∀ e ∈ tevs, isTerminal e = false := by
                  intro e he
                  exact execTools_events env tcs e (by rw [hex]; exact he)
                have hall : ∀ e ∈ acc ++ em ++ tevs, isTerminal e = false := by
                  intro e he
                  rcases List.mem_append.mp he with h2 | h2
                  · rcases List.mem_append.mp h2 with h3 | h3
                    · exact hacc e h3
                    · exact hem e h3
                  · exact htevs e h2
                cases hres : restRes with
                | error u =>
                  simp only [hex, hres]
                  refine ⟨?_, ?_, ?_⟩
                  · show inv + 1 ≤ inv + (fuel + 1)
                    omega
                  · intro h
                    cases h
                  · intro e he
                    exact hall e (List.dropLast_subset _ he)
                | ok toolMsgs =>
                  simp only [hex, hres]
                  have hih := ih ((msgs ++ [⟨"assistant", fullContent, none, some tcs, none⟩])
                      ++ toolMsgs) (k' + 1) (acc ++ em ++ tevs) (inv + 1) hall
                  refine ⟨?_, hih.2.1, hih.2.2⟩
                  have h1 := hih.1
                  omega

theorem countP_le_one_of_dropLast {l : List EmE}
    (h : ∀ e ∈ l.dropLast, isTerminal e = false) :
    l.countP (fun e => isTerminal e) ≤ 1 := by
  rcases List.eq_nil_or_concat l with rfl | ⟨init, a, rfl⟩
  · simp
  · rw [List.concat_eq_append, List.countP_append]
    have h0 : init.countP (fun e => isTerminal e) = 0 := by
      rw [List.countP_eq_zero]
      intro x hx
      have := h x (by rwa [List.concat_eq_append, List.dropLast_concat])
      simp [this]
    rw [h0]
    simp [List.countP_cons]
    split <;> omega

/-- C2: for every environment (provider behavior, cancel schedule, tool
oracles) and initial message list, `run_conversation` invokes the adapter's
`stream_chat` at most `MAX_LOOPS` = 10 times, and when it exits through the
`MAX_LOOPS` break it returns success and its whole trace contains no terminal
event — so the break emits nothing further. -/
theorem c2_loop_termination (env : OrchEnv) (msgs : List MsgV) :
    (runConv env msgs).invocations ≤ MAX_LOOPS ∧
    ((runConv env msgs).cappedExit = true →
      (runConv env msgs).result = .ok () ∧
      ∀ e ∈ (runConv env msgs).events, isTerminal e = false) := by
  have hacc : ∀ e ∈ [EmE.streamStart], isTerminal e = false := by
    intro e he
    rw [List.mem_singleton] at he
    subst he
    rfl
  have h := runLoop_inv env MAX_LOOPS msgs 0 [EmE.streamStart] 0 hacc
  exact ⟨by simpa using h.1, h.2.1⟩

/-- C4 (amended): for every environment and initial message list, the event
trace of one `run_conversation` call contains at most one terminal event
(`chat:complete`, `chat:cancelled`, `chat:error`), and every event other than
the last one is non-terminal; the trace may contain no terminal event at all
(`MAX_LOOPS` exhaustion, a failing `stream_chat` call, or a truncation
panic). -/
theorem c4_at_most_one_terminal (env : OrchEnv) (msgs : List MsgV) :
    (runConv env msgs).events.countP (fun e => isTerminal e) ≤ 1 ∧
    ∀ e ∈ (runConv env msgs).events.dropLast, isTerminal e = false := by
  have hacc : ∀ e ∈ [EmE.streamStart], isTerminal e = false := by
    intro e he
    rw [List.mem_singleton] at he
    subst he
    rfl
  have h := (runLoop_inv env MAX_LOOPS msgs 0 [EmE.streamStart] 0 hacc).2.2
  exact ⟨countP_le_one_of_dropLast h, h⟩

/-- Environment in which the provider answers every request with a single
tool call, the cancel flag is never set, and the tool has no registered
client (so tool execution substitutes an error message and continues). -/
def loopEnv : OrchEnv :=
  { provider := fun _ => .ok [.toolCall ⟨some "x", some ⟨some "t", some "\x7b\x7d"⟩⟩]
  , cancel := fun _ => false
  , toolMapping := fun _ => none
  , clientFound := fun _ => false
  , callTool := fun _ _ => .error "unused" }

/-- C4 counterexample: under `loopEnv` the conversation runs into the
`MAX_LOOPS` cap and the trace contains zero terminal events, not exactly
one as the claim asserts. -/
theorem c4_counterexample :
    (runConv loopEnv []).events.countP (fun e => isTerminal e) = 0 ∧
    (runConv loopEnv []).cappedExit = true := by
  refine ⟨by decide, by decide⟩

/-- Witness for `c2_loop_termination` at `loopEnv`: the capped exit really
occurs and the conclusions evaluate. -/
theorem c2_loop_termination_witness :
    (runConv loopEnv []).invocations ≤ MAX_LOOPS ∧
    ((runConv loopEnv []).result = .ok () ∧
      ∀ e ∈ (runConv loopEnv []).events, isTerminal e = false) :=
  ⟨(c2_loop_termination loopEnv []).1,
   (c2_loop_termination loopEnv []).2 (by decide)⟩

/-- Witness for `c4_at_most_one_terminal`: applying it at `loopEnv` to the
concrete trace member `chat:stream-start`. -/
theorem c4_at_most_one_terminal_witness : isTerminal EmE.streamStart = false :=
  (c4_at_most_one_terminal loopEnv []).2 EmE.streamStart (by decide)

/-! ## MCP client request/response correlation (mcp/mod.rs 91-132) over the
stdio and SSE transports (mcp/transport.rs)

JSON values are modelled by `JVal` (numbers restricted to integers, which
covers every value the claims touch).  A frame received from the wire is
modelled together with the outcome of its JSON parse: a stdio line is
`Option JVal` (`none` = `serde_json::from_str` fails, which `?`-propagates as
an error from `StdioTransport::receive`); an SSE message carries its raw data
string (used by the `endpoint` event) and the parse outcome of that data
(`none` = unparseable, which `SseTransport::receive` silently skips).
`send_request` allocates the next id, sends, then loops on `receive` until a
response with the matching id arrives; `corrStdio` / `corrSse` are that loop
with the respective transport's `receive` inlined (one `receive` call
consumes frames up to and including the one it returns). -/

/-- Minimal JSON value model. -/
inductive JVal where
  | null
  | bool (b : Bool)
  | num (n : Int)
  | str (s : String)
  | arr (vs : List JVal)
  | obj (fields : List (String × JVal))

/-- First binding of a key in a JSON object. -/
def jLookup : List (String × JVal) → String → Option JVal
  | [], _ => none
  | (k', v) :: r, k => if k' = k then some v else jLookup r k

/-- A decoded `JsonRpcError` (`{code, message}`; the optional `data` member
does not affect any claim). -/
structure RpcErrorV where
  code : Int
  message : String
deriving DecidableEq

/-- A decoded `JsonRpcResponse`. -/
structure RpcRespV where
  id : Option Nat
  result : Option JVal
  error : Option RpcErrorV

/-- Decoding of serde's `from_value::<JsonRpcError>`. -/
def parseRpcError (v : JVal) : Option RpcErrorV :=
  match v with
  | .obj fs =>
    match jLookup fs "code", jLookup fs "message" with
    | some (.num c), some (.str m) => some ⟨c, m⟩
    | _, _ => none
  | _ => none

/-- Decoding of serde's `from_value::<JsonRpcResponse>`: requires a string
`jsonrpc` member; `id` is an optional unsigned integer (absent or null maps
to `none`, a negative or non-numeric id fails the decode); `error` is an
optional error object. -/
def parseResp (v : JVal) : Option RpcRespV :=
  match v with
  | .obj fs =>
    match jLookup fs "jsonrpc" with
    | some (.str _) =>
      match
        (match jLookup fs "id" with
         | none => some none
         | some .null => some none
         | some (.num n) => if 0 ≤ n then some (some n.toNat) else none
         | some _ => none),
        (match jLookup fs "error" with
         | none => some none
         | some .null => some none
         | some ev => (parseRpcError ev).map some) with
      | some i, some e => some ⟨i, jLookup fs "result", e⟩
      | _, _ => none
    | _ => none
  | _ => none

/-- One event observed on the SSE channel (`reqwest_eventsource::Event`). -/
inductive SseEv where
  | opened
  | message (event : String) (raw : String) (parsed : Option JVal)
  | errE (msg : String)

/-- Embedding of `SseTransport::receive`: skip `Open`, consume `endpoint`
events into the POST url, skip unparseable messages, return the first parsed
JSON value; end of stream returns `none`. -/
def sseReceive (u : Option String) : List SseEv →
    Except String (Option JVal) × Option String × List SseEv
  | [] => (.ok none, u, [])
  | e :: r =>
    match e with
    | .opened => sseReceive u r
    | .message name raw parsed =>
      if name = "endpoint" then sseReceive (some raw.trim) r
      else
        match parsed with
        | some v => (.ok (some v), u, r)
        | none => sseReceive u r
    | .errE m => (.error ("SSE Error: " ++ m), u, r)

/-- Structured failure text of a JSON-RPC error object
(`anyhow!("RPC Error {}: {}", ...)`). -/
def rpcErrorText (err : RpcErrorV) : String :=
  "RPC Error " ++ toString err.code ++ ": " ++ err.message

/-- Answer for a response whose id matches the request. -/
def answerOf (resp : RpcRespV) : Except String JVal :=
  match resp.error with
  | some err => .error (rpcErrorText err)
  | none => .ok (resp.result.getD .null)

/-- The correlation loop of `send_request` over the stdio transport: each
iteration reads one line; EOF fails with `Connection closed`; a line that is
not JSON fails the request (`receive` returns an error that `?`-propagates);
decodable responses with the wrong id are discarded; the matching response
answers the request. -/
def corrStdio (reqId : Nat) : List (Option JVal) → Except String JVal
  | [] => .error "Connection closed"
  | none :: _ => .error "Failed to parse JSON"
  | some v :: r =>
    match parseResp v with
    | some resp => if resp.id = some reqId then answerOf resp else corrStdio reqId r
    | none => corrStdio reqId r

/-- The correlation loop of `send_request` over the SSE transport, with
`SseTransport::receive` inlined (each loop iteration consumes events up to
the value that `receive` returns); `corrSse_receive` below relates this to
`sseReceive`. -/
def corrSse (reqId : Nat) (u : Option String) : List SseEv → Except String JVal
  | [] => .error "Connection closed"
  | e :: r =>
    match e with
    | .opened => corrSse reqId u r
    | .errE m => .error ("SSE Error: " ++ m)
    | .message name raw parsed =>
      if name = "endpoint" then corrSse reqId (some raw.trim) r
      else
        match parsed with
        | none => corrSse reqId u r
        | some v =>
          match parseResp v with
          | some resp => if resp.id = some reqId then answerOf resp else corrSse reqId u r
          | none => corrSse reqId u r

/-- The fused SSE correlation loop agrees with one `sseReceive` call followed
by the client-side dispatch — the shape of the source's two nested loops. -/
theorem corrSse_receive (reqId : Nat) (u : Option String) (evs : List SseEv) :
    corrSse reqId u evs =
      match sseReceive u evs with
      | (.error e, _, _) => .error e
      | (.ok none, _, _) => .error "Connection closed"
      | (.ok (some v), u', evs') =>
        match parseResp v with
        | some resp => if resp.id = some reqId then answerOf resp else corrSse reqId u' evs'
        | none => corrSse reqId u' evs' := by
  induction evs generalizing u with
  | nil => rfl
  | cons e r ih =>
    cases e with
    | opened => exact ih u
    | errE m => rfl
    | message name raw parsed =>
      by_cases hn : name = "endpoint"
      · simp only [corrSse, sseReceive, if_pos hn]
        exact ih (some raw.trim)
      · cases parsed with
        | some v => simp only [corrSse, sseReceive, if_neg hn]
        | none =>
          simp only [corrSse, sseReceive, if_neg hn]
          exact ih u

/-- A JSON-RPC request value as `send_request` serializes it. -/
def reqVal (id : Nat) (method : String) (params : Option JVal) : JVal :=
  .obj ([("jsonrpc", .str "2.0"), ("id", .num id), ("method", .str method)] ++
    (match params with
     | some p => [("params", p)]
     | none => []))

/-- State of one `McpClient`: the id counter and the transport. -/
inductive TrState where
  | stdio (lines : List (Option JVal))
  | sse (postUrl : Option String) (events : List SseEv)

/-- Client state: monotone request-id counter plus transport. -/
structure McpClientState where
  nextId : Nat
  transport : TrState

/-- Observable outcome of one `send_request` call: which id it allocated,
which frames it sent, what it returned, and the advanced counter. -/
structure SendOutcome where
  allocatedId : Nat
  sent : List JVal
  result : Except String JVal
  nextId : Nat

/-- Embedding of `McpClient::send_request`: allocate the next id from the
counter, send the request (over SSE this fails before sending when no
`endpoint` event has been seen), then correlate on `receive`. -/
def sendRequest (st : McpClientState) (method : String) (params : Option JVal) :
    SendOutcome :=
  let id := st.nextId
  let req := reqVal id method params
  match st.transport with
  | .stdio lines =>
    { allocatedId := id, sent := [req], result := corrStdio id lines, nextId := id + 1 }
  | .sse u evs =>
    match u with
    | none =>
      { allocatedId := id, sent := [], result := .error "No POST endpoint discovered yet"
      , nextId := id + 1 }
    | some _ =>
      { allocatedId := id, sent := [req], result := corrSse id u evs, nextId := id + 1 }

/-- C7 (amended): every `send_request` allocates the next id from the
monotone counter and advances it; during correlation, end of stream fails the
request with `Connection closed`; decodable responses with another id are
discarded; the response carrying the allocated id answers the request — a
JSON-RPC error object fails it with `{code, message}`, otherwise its result
is returned.  A parse failure on a received frame is fatal on the stdio
transport, while the SSE transport silently skips unparseable frames and
keeps receiving. -/
theorem c7_mcp_correlation :
    (∀ st method params,
      (sendRequest st method params).allocatedId = st.nextId ∧
      (sendRequest st method params).nextId = st.nextId + 1) ∧
    (∀ id, corrStdio id [] = .error "Connection closed") ∧
    (∀ id u, corrSse id u [] = .error "Connection closed") ∧
    (∀ id lines, corrStdio id (none :: lines) = .error "Failed to parse JSON") ∧
    (∀ id u name raw lines, name ≠ "endpoint" →
      corrSse id u (SseEv.message name raw none :: lines) = corrSse id u lines) ∧
    (∀ id v lines resp, parseResp v = some resp → resp.id ≠ some id →
      corrStdio id (some v :: lines) = corrStdio id lines) ∧
    (∀ id v lines resp err, parseResp v = some resp → resp.id = some id →
      resp.error = some err →
      corrStdio id (some v :: lines) = .error (rpcErrorText err)) ∧
    (∀ id v lines resp, parseResp v = some resp → resp.id = some id →
      resp.error = none →
      corrStdio id (some v :: lines) = .ok (resp.result.getD .null)) := by
  refine ⟨?_, fun _ => rfl, fun _ _ => rfl, fun _ _ => rfl, ?_, ?_, ?_, ?_⟩
  · intro st method params
    cases htr : st.transport with
    | stdio lines => simp [sendRequest, htr]
    | sse u evs =>
      cases u with
      | none => simp [sendRequest, htr]
      | some url => simp [sendRequest, htr]
  · intro id u name raw lines hn
    simp only [corrSse, if_neg hn]
  · intro id v lines resp hp hne
    simp only [corrStdio, hp]
    rw [if_neg hne]
  · intro id v lines resp err hp hid herr
    simp only [corrStdio, hp]
    rw [if_pos hid]
    simp [answerOf, herr]
  · intro id v lines resp hp hid herr
    simp only [corrStdio, hp]
    rw [if_pos hid]
    simp [answerOf, herr]

/-- SSE client that has discovered its endpoint and will observe an
unparseable frame followed by the matching response for id 1. -/
def sseScenario : McpClientState :=
  { nextId := 1
  , transport := .sse (some "http://host/rpc")
      [ SseEv.message "message" "not json" none
      , SseEv.message "message" "resp"
          (some (.obj [("jsonrpc", .str "2.0"), ("id", .num 1), ("result", .str "ok")])) ] }

/-- C7 counterexample: over the SSE transport a parse failure on a received
frame is not fatal — the request still succeeds with the result of the later
well-formed response, refuting the claim that a parse failure on a received
frame fails the request. -/
theorem c7_counterexample :
    (sendRequest sseScenario "tools/list" none).result = .ok (.str "ok") ∧
    (sendRequest sseScenario "tools/list" none).allocatedId = 1 := by
  exact ⟨rfl, rfl⟩

/-- Witness for `c7_mcp_correlation`: the discard and failure clauses applied
at concrete frames. -/
theorem c7_mcp_correlation_witness :
    corrSse 1 (some "u") (SseEv.message "message" "x" none :: []) = corrSse 1 (some "u") [] ∧
    corrStdio 1 (some (.obj [("jsonrpc", .str "2.0"), ("id", .num 2), ("result", .null)]) :: [])
      = corrStdio 1 [] ∧
    corrStdio 1 [some (.obj [("jsonrpc", .str "2.0"), ("id", .num 1),
        ("error", .obj [("code", .num (-32600)), ("message", .str "bad")])])]
      = .error (rpcErrorText ⟨-32600, "bad"⟩) ∧
    corrStdio 1 [some (.obj [("jsonrpc", .str "2.0"), ("id", .num 1), ("result", .str "r")])]
      = .ok (.str "r") := by
  refine ⟨?_, ?_, ?_, ?_⟩
  · exact c7_mcp_correlation.2.2.2.2.1 1 (some "u") "message" "x" [] (by decide)
  · exact c7_mcp_correlation.2.2.2.2.2.1 1 _ [] ⟨some 2, some .null, none⟩ rfl (by decide)
  · exact c7_mcp_correlation.2.2.2.2.2.2.1 1 _ [] ⟨some 1, none, some ⟨-32600, "bad"⟩⟩
      ⟨-32600, "bad"⟩ rfl rfl rfl
  · exact c7_mcp_correlation.2.2.2.2.2.2.2 1 _ [] ⟨some 1, some (.str "r"), none⟩ rfl rfl rfl

/-! ## Ollama tool-unsupported fallback (ollama.rs 34-161)

The HTTP server is an oracle from the request payload to a response; a
successful response carries an opaque body-stream identifier, a failing one
carries its body text.  Floating-point option values are only copied, never
computed with, so they are carried opaquely as strings. -/

/-- Chat options as received by the adapter (`ChatOptions`). -/
structure ChatOptsM where
  temperature : Option String
  topK : Option Int
  topP : Option String
  maxTokens : Option Int
deriving DecidableEq

/-- The `options` map built into the payload: `max_tokens` is renamed to
`num_predict`, the other keys pass through. -/
structure OptionsMap where
  temperature : Option String
  top_k : Option Int
  top_p : Option String
  num_predict : Option Int
deriving DecidableEq

/-- The four `if let` insertions of `stream_chat` (identical in the retry
branch). -/
def buildOptionsMap (opts : ChatOptsM) : OptionsMap :=
  { temperature := opts.temperature
  , top_k := opts.topK
  , top_p := opts.topP
  , num_predict := opts.maxTokens }

/-- Request payload POSTed to `{base}/api/chat`. -/
structure OllamaPayload where
  model : String
  streamFlag : Bool
  messages : List MsgV
  tools : Option (List JVal)
  options : Option OptionsMap

/-- The fixed system instruction injected when tools are present. -/
def toolInstruction : String :=
  "\nYou have access to tools/functions. If the user asks for something that requires a tool, please use the available tools to verify or retrieve information. Ensure you use the correct tool name and arguments."

/-- Injection of the tool system-instruction (ollama.rs 59-81): appended to
an existing leading system message, otherwise prepended (or pushed into an
empty list) as a fresh system message with the instruction trimmed. -/
def injectInstruction (messages : List MsgV) : List MsgV :=
  match messages with
  | [] => [⟨"system", toolInstruction.trim, none, none, none⟩]
  | first :: rest =>
    if first.role = "system" then
      { first with content := first.content ++ toolInstruction } :: rest
    else
      ⟨"system", toolInstruction.trim, none, none, none⟩ :: first :: rest

/-- Non-empty-tools test (`tools.as_ref().map(|t| !t.is_empty()).unwrap_or(false)`). -/
def hasToolsOf (tools : Option (List JVal)) : Bool :=
  tools.elim false (fun t => !t.isEmpty)

/-- The first request payload: tools and the injected instruction are present
exactly when the tools list is non-empty. -/
def buildPayload (model : String) (messages : List MsgV) (tools : Option (List JVal))
    (options : Option ChatOptsM) : OllamaPayload :=
  { model := model
  , streamFlag := true
  , messages := if hasToolsOf tools then injectInstruction messages else messages
  , tools := if hasToolsOf tools then tools else none
  , options := options.map buildOptionsMap }

/-- The retry payload (ollama.rs 117-138): same model, stream flag and
options, the original messages, and no tools member. -/
def buildRetryPayload (model : String) (messages : List MsgV)
    (options : Option ChatOptsM) : OllamaPayload :=
  { model := model
  , streamFlag := true
  , messages := messages
  , tools := none
  , options := options.map buildOptionsMap }

/-- HTTP response oracle outcome. -/
inductive HResp where
  | success (body : Nat)
  | failure (body : String)

/-- Observable outcome of a successful `stream_chat`: the payloads sent, the
warning prepended as a `Content` event by `OllamaStream::new_with_warning`
(if any), and which response body is streamed. -/
structure OllamaOutcome where
  requests : List OllamaPayload
  warning : Option String
  body : Nat

/-- Warning text prepended on fallback. -/
def warningMsg (model : String) : String :=
  "**Note:** The model `" ++ model ++ "` does not support MCP tools. Continuing without tool access.\n\n"

/-- Byte-wise prefix test. -/
def listPrefixOf : List Char → List Char → Bool
  | [], _ => true
  | _ :: _, [] => false
  | a :: as, b :: bs => a == b && listPrefixOf as bs

/-- Contiguous-subsequence test. -/
def listInfixOf (needle : List Char) : List Char → Bool
  | [] => needle.isEmpty
  | c :: rest => listPrefixOf needle (c :: rest) || listInfixOf needle rest

/-- Substring test modelling Rust `str::contains`. -/
def containsSub (hay needle : String) : Bool := listInfixOf needle.data hay.data

/-- Embedding of `OllamaProvider::stream_chat`: POST once; on success stream
the body; on failure, retry exactly once without tools and without the
injected instruction when tools were present and the body mentions
`does not support tools`, prepending the warning `Content` event; any other
failure (or a failing retry) is fatal and carries the body text. -/
def streamChatOllama (server : OllamaPayload → HResp) (model : String)
    (messages : List MsgV) (tools : Option (List JVal)) (options : Option ChatOptsM) :
    Except String OllamaOutcome :=
  let p1 := buildPayload model messages tools options
  match server p1 with
  | .success b => .ok ⟨[p1], none, b⟩
  | .failure text =>
    if hasToolsOf tools && containsSub text "does not support tools" then
      let p2 := buildRetryPayload model messages options
      match server p2 with
      | .success b => .ok ⟨[p1, p2], some (warningMsg model), b⟩
      | .failure t2 => .error ("Ollama error: " ++ t2)
    else .error ("Ollama error: " ++ text)

/-- C8: the fallback happens if and only if the request carried non-empty
tools and the failing body mentions `does not support tools`; it reissues the
request exactly once, with the original messages, without the tools field and
without the injected instruction, and prepends one warning `Content` event;
any other failure is fatal carrying the body. -/
theorem c8_ollama_tool_fallback (server : OllamaPayload → HResp) (model : String)
    (messages : List MsgV) (tools : Option (List JVal)) (options : Option ChatOptsM) :
    (∀ b, server (buildPayload model messages tools options) = .success b →
      streamChatOllama server model messages tools options =
        .ok ⟨[buildPayload model messages tools options], none, b⟩) ∧
    (∀ text, server (buildPayload model messages tools options) = .failure text →
      ((hasToolsOf tools && containsSub text "does not support tools") = true →
        (buildRetryPayload model messages options).tools = none ∧
        (buildRetryPayload model messages options).messages = messages ∧
        (∀ b2, server (buildRetryPayload model messages options) = .success b2 →
          streamChatOllama server model messages tools options =
            .ok ⟨[buildPayload model messages tools options,
                  buildRetryPayload model messages options],
                 some (warningMsg model), b2⟩) ∧
        (∀ t2, server (buildRetryPayload model messages options) = .failure t2 →
          streamChatOllama server model messages tools options =
            .error ("Ollama error: " ++ t2))) ∧
      ((hasToolsOf tools && containsSub text "does not support tools") = false →
        streamChatOllama server model messages tools options =
          .error ("Ollama error: " ++ text))) ∧
    (∀ out, streamChatOllama server model messages tools options = .ok out →
      (out.warning.isSome = true ↔
        ∃ text, server (buildPayload model messages tools options) = .failure text ∧
          (hasToolsOf tools && containsSub text "does not support tools") = true)) := by
  refine ⟨?_, ?_, ?_⟩
  · intro b hb
    simp [streamChatOllama, hb]
  · intro text htext
    constructor
    · intro hcond
      refine ⟨rfl, rfl, ?_, ?_⟩
      · intro b2 hb2
        simp [streamChatOllama, htext, hcond, hb2]
      · intro t2 ht2
        simp [streamChatOllama, htext, hcond, ht2]
    · intro hcond
      simp [streamChatOllama, htext, hcond]
  · intro out hout
    simp only [streamChatOllama] at hout
    cases hs1 : server (buildPayload model messages tools options) with
    | success b =>
      simp only [hs1] at hout
      have hval : out = ⟨[buildPayload model messages tools options], none, b⟩ :=
        (Except.ok.inj hout).symm
      subst hval
      simp only [Option.isSome_none]
      constructor
      · intro hfalse
        cases hfalse
      · rintro ⟨text, htext, -⟩
        cases htext
    | failure text =>
      simp only [hs1] at hout
      by_cases hcond : (hasToolsOf tools && containsSub text "does not support tools") = true
      · rw [if_pos hcond] at hout
        cases hs2 : server (buildRetryPayload model messages options) with
        | success b2 =>
          simp only [hs2] at hout
          have hval : out = ⟨[buildPayload model messages tools options,
              buildRetryPayload model messages options], some (warningMsg model), b2⟩ :=
            (Except.ok.inj hout).symm
          subst hval
          simp only [Option.isSome_some, true_iff]
          exact ⟨text, rfl, hcond⟩
        | failure t2 =>
          simp only [hs2] at hout
          cases hout
      · rw [if_neg hcond] at hout
        cases hout

/-- Server oracle that rejects any request carrying tools with a
tool-unsupported body and accepts tool-free requests. -/
def fbServer : OllamaPayload → HResp :=
  fun p =>
    if p.tools.isSome then .failure "model m does not support tools, disable them"
    else .success 7

/-- Concrete message list with a leading system message. -/
def fbMessages : List MsgV := [⟨"system", "sys", none, none, none⟩]

/-- Witness for `c8_ollama_tool_fallback`: the fallback branch taken end to
end at a concrete server. -/
theorem c8_ollama_tool_fallback_witness :
    streamChatOllama fbServer "m" fbMessages (some [JVal.null]) none =
      .ok ⟨[buildPayload "m" fbMessages (some [JVal.null]) none,
            buildRetryPayload "m" fbMessages none],
           some (warningMsg "m"), 7⟩ :=
  (((c8_ollama_tool_fallback fbServer "m" fbMessages (some [JVal.null]) none).2.1
      "model m does not support tools, disable them" rfl).1 (by decide)).2.2.1 7 rfl

/-! ## Stream registry manipulation of `chat_stream` and `abort_chat`
(commands/chat.rs)

`ACTIVE_STREAMS` is a map from stream id to the shared cancel flag; the flag's
current value is modelled in place.  `chat_stream` inserts the fresh id right
after generating it (lines 71-74); the reqwest client construction (line 78)
and the request send (lines 124-130) `?`-propagate errors, returning *before*
any removal; the HTTP-non-success path removes the entry (lines 150-153), and
every path that reaches the streaming phase falls through to the removal at
the end of the function (lines 334-337), whatever the stream did.
`abort_chat` (lines 345-358) — the command registered as `chat_cancel` in
lib.rs — takes no stream id and sets the flag of every registered stream. -/

/-- Registry lookup. -/
def regLookup : List (String × Bool) → String → Option Bool
  | [], _ => none
  | (k, v) :: r, sid => if k = sid then some v else regLookup r sid

/-- Registration of a fresh stream id with an unset cancel flag. -/
def regInsert (reg : List (String × Bool)) (sid : String) : List (String × Bool) :=
  reg ++ [(sid, false)]

/-- Removal of a stream id. -/
def regRemove (reg : List (String × Bool)) (sid : String) : List (String × Bool) :=
  reg.filter (fun p => p.1 != sid)

/-- Registry effect of one `chat_stream` call for a fresh stream id `sid`:
the outcome of the client construction and of the request send are oracles,
as is whether the stream later completes.  Returns the final registry and the
command result. -/
def chatStreamReg (reg : List (String × Bool)) (sid : String)
    (clientBuild : Except String Unit) (send : Except String Bool)
    (streamCompleted : Bool) : List (String × Bool) × Except String Bool :=
  let reg1 := regInsert reg sid
  match clientBuild with
  | .error e => (reg1, .error e)
  | .ok _ =>
    match send with
    | .error e => (reg1, .error ("Failed to send request: " ++ e))
    | .ok statusOk =>
      if statusOk = false then (regRemove reg1 sid, .ok false)
      else (regRemove reg1 sid, .ok streamCompleted)

/-- C5: when the POST send fails, `chat_stream` returns through the `?`
operator with the stream id still registered — the registry-cleanup claim
fails on this exit path. -/
theorem c5_registry_leak_on_send_failure :
    (chatStreamReg [] "s1" (.ok ()) (.error "connection refused") true).1
      = [("s1", false)] ∧
    regLookup (chatStreamReg [] "s1" (.ok ()) (.error "connection refused") true).1 "s1"
      = some false ∧
    (chatStreamReg [] "s1" (.ok ()) (.error "connection refused") true).2
      = .error ("Failed to send request: connection refused") :=
  ⟨rfl, rfl, rfl⟩

/-- Embedding of `abort_chat`: set the cancel flag of every registered
stream, return success. -/
def abortChat (reg : List (String × Bool)) : List (String × Bool) × Except String Unit :=
  (reg.map (fun p => (p.1, true)), .ok ())

/-- C9 counterexample: the only cancellation command in the code,
`abort_chat` (bound as `chat_cancel`), takes no stream id and sets the cancel
flag of *every* registered stream: with streams `a` and `b` registered, a
cancellation aimed at `a` also flips `b`'s flag, refuting "never affects the
cancel flags of other active streams". -/
theorem c9_counterexample :
    (abortChat [("a", false), ("b", false)]).1 = [("a", true), ("b", true)] ∧
    regLookup (abortChat [("a", false), ("b", false)]).1 "b" = some true :=
  ⟨rfl, rfl⟩

/-- C9 (amended): the cancellation command returns success immediately and
sets the cancel flag of every registered stream; ids not in the registry stay
absent, and on an empty registry it is a no-op that does not fail. -/
theorem c9_abort_cancels_all (reg : List (String × Bool)) :
    (abortChat reg).2 = .ok () ∧
    (∀ sid b, regLookup reg sid = some b → regLookup (abortChat reg).1 sid = some true) ∧
    (∀ sid, regLookup reg sid = none → regLookup (abortChat reg).1 sid = none) ∧
    abortChat [] = ([], .ok ()) := by
  refine ⟨rfl, ?_, ?_, rfl⟩
  · intro sid b hsb
    induction reg with
    | nil => cases hsb
    | cons p r ih =>
      obtain ⟨k, v⟩ := p
      simp only [abortChat, List.map_cons, regLookup]
      simp only [regLookup] at hsb
      by_cases hk : k = sid
      · rw [if_pos hk]
      · rw [if_neg hk]
        rw [if_neg hk] at hsb
        exact ih hsb
  · intro sid hnone
    induction reg with
    | nil => rfl
    | cons p r ih =>
      obtain ⟨k, v⟩ := p
      simp only [abortChat, List.map_cons, regLookup]
      simp only [regLookup] at hnone
      by_cases hk : k = sid
      · rw [if_pos hk] at hnone
        cases hnone
      · rw [if_neg hk]
        rw [if_neg hk] at hnone
        exact ih hnone

/-- Witness for `c9_abort_cancels_all` at a one-entry registry. -/
theorem c9_abort_cancels_all_witness :
    regLookup (abortChat [("a", false)]).1 "a" = some true :=
  (c9_abort_cancels_all [("a", false)]).2.1 "a" false rfl
